import Mathlib

/-
Verification of the numpyboxedprint pretty printer (src/numpyboxedprint.py).

The program is a single function `parr` that pretty prints an np.ndarray in a
boxed, APL-inspired style.  We shallowly embed its data and helpers:

* an n-dimensional numpy array is a shape (list of dimension extents) together
  with the row-major flat list of its entries (`NpArray`);
* the scalar dtype dispatch (np.integer / np.floating / np.complex128 / other)
  is the enumeration `Kind`;
* the external collaborator `np.array2string(np.array(x), precision=..,
  floatmode="maxprec")` is an abstract parameter `a2s : α → String` (the
  `max_precision` option is baked into it, since the core never inspects it
  otherwise);
* Python operations that can raise are embedded in `Except PyErr`:
  `max()` of an empty sequence raises ValueError, `b[0]` of an empty list
  raises IndexError, `re.search(..).groups()` on a failed search raises
  AttributeError, the `isinstance` check raises TypeError, and the dtype
  dispatch falls through to NotImplementedError;
* the regular expressions of lines 31/34/37 are embedded by a small
  backtracking matcher producing the alternatives of each sub-pattern in
  the priority order (greedy first) used by Python's `re`, with `re.search`
  scanning left to right for the first position with a match.
-/

namespace NPB

/-- The Python exceptions that the program can raise. -/
inductive PyErr where
  | typeError
  | notImplementedError
  | attributeError
  | valueError
  | indexError
deriving DecidableEq, Repr

/-- The scalar dtype classification used by the elif chain of lines 30-40:
`np.issubdtype(.., np.integer)`, `np.floating`, `np.complex128`, and anything
else (e.g. np.bool_), which is unsupported. -/
inductive Kind where
  | intK
  | floatK
  | complexK
  | boolK
deriving DecidableEq, Repr

/-- An np.ndarray: a shape together with the row-major flattened entries
(`arr.flat`).  A well-formed array has `flat.length = shape.prod`. -/
structure NpArray (α : Type) where
  shape : List Nat
  flat : List α
deriving DecidableEq, Repr

/-- A Python value passed to `parr`: either an np.ndarray or anything else
(which fails the isinstance check of line 12). -/
inductive PyVal (α : Type) where
  | ndarray (arr : NpArray α)
  | other
deriving DecidableEq, Repr

/-- Python `str.ljust(w)`: pad on the right with spaces to width `w`
(no-op when the string is already at least that wide). -/
def pyLjust (s : String) (w : Nat) : String :=
  s ++ String.mk (List.replicate (w - s.length) ' ')

/-- Python `str.rjust(w)`: pad on the left with spaces to width `w`. -/
def pyRjust (s : String) (w : Nat) : String :=
  String.mk (List.replicate (w - s.length) ' ') ++ s

/-- Python `max` over a list of naturals: raises ValueError on an empty
sequence, otherwise folds `max` over the elements. -/
def pymax (l : List Nat) : Except PyErr Nat :=
  match l with
  | [] => .error .valueError
  | a :: r => .ok (r.foldl Nat.max a)

/-- Fuel-driven core of `zipStar`.  At each step take the head of every list
(stopping, exactly like Python `zip`, as soon as any list is exhausted). -/
def zipStarAux (fuel : Nat) (ts : List (List α)) : List (List α) :=
  match fuel with
  | 0 => []
  | fuel + 1 =>
    match ts.mapM List.head? with
    | none => []
    | some hs => hs :: zipStarAux fuel (ts.map List.tail)

/-- Python `zip(*ts)` (as a list of the tuples it yields): stops at the
shortest list; `zip()` of no arguments is empty.  The fuel is the length of
the first list, which bounds the number of tuples `zip` can yield. -/
def zipStar (ts : List (List α)) : List (List α) :=
  if ts.isEmpty then [] else zipStarAux (ts.headD []).length ts

/-! ### The regex engine

Each sub-pattern (`Matcher`) maps an input to the list of its possible
(matched string, remaining input) outcomes in the priority order used by
Python's backtracking `re` engine: greedy alternatives first.  A full pattern
is a list of capture groups; `matchGroups` composes them left to right,
backtracking through the alternatives, and `reSearch` is `re.search`:
it scans positions left to right and returns the captures of the first match,
with a non-participating optional group captured as `""` (the program
replaces `None` captures by `""` at line 44). -/

/-- A sub-pattern: all (consumed, rest) outcomes, in priority order. -/
def Matcher : Type := List Char → List (String × List Char)

/-- Character predicate for `[0-9]`. -/
def isDigitCh (c : Char) : Bool := ('0' ≤ c) && (c ≤ '9')

/-- Character predicate for the class `[+-]`. -/
def isSignCh (c : Char) : Bool := (c == '+') || (c == '-')

/-- A single-character class such as `[+-]` or a literal character. -/
def mclass (p : Char → Bool) : Matcher := fun cs =>
  match cs with
  | [] => []
  | c :: r => if p c then [(String.mk [c], r)] else []

/-- The wildcard `.`: any single character except a newline. -/
def manyChar : Matcher := fun cs =>
  match cs with
  | [] => []
  | c :: r => if c == '\n' then [] else [(String.mk [c], r)]

/-- Greedy `[0-9]*`: the maximal digit run first, then successively shorter
prefixes down to the empty match. -/
def mDigitsStar : Matcher := fun cs =>
  let n := (cs.takeWhile isDigitCh).length
  (List.range (n + 1)).reverse.map (fun k => (String.mk (cs.take k), cs.drop k))

/-- Greedy `[0-9]+`: like `mDigitsStar` but at least one digit. -/
def mDigitsPlus : Matcher := fun cs =>
  let n := (cs.takeWhile isDigitCh).length
  (List.range n).reverse.map (fun k => (String.mk (cs.take (k + 1)), cs.drop (k + 1)))

/-- Greedy `p?`: the present alternative first, then the empty one. -/
def mopt (m : Matcher) : Matcher := fun cs => m cs ++ [("", cs)]

/-- Sequential composition of two sub-patterns inside one group. -/
def mseq (m n : Matcher) : Matcher := fun cs =>
  (m cs).flatMap (fun pr => (n pr.2).map (fun qr => (pr.1 ++ qr.1, qr.2)))

/-- Match a list of capture groups in sequence, backtracking through the
alternatives of each group; outcomes are (captures, remaining input). -/
def matchGroups : List Matcher → List Char → List (List String × List Char)
  | [], cs => [([], cs)]
  | g :: gs, cs =>
    (g cs).flatMap (fun pr =>
      (matchGroups gs pr.2).map (fun qr => (pr.1 :: qr.1, qr.2)))

/-- Python `re.search(pattern, s).groups()`: try the pattern at each start
position from the left; `none` when no position matches. -/
def reSearch (gs : List Matcher) : List Char → Option (List String)
  | [] => ((matchGroups gs []).head?).map Prod.fst
  | c :: r =>
    match (matchGroups gs (c :: r)).head? with
    | some pr => some pr.1
    | none => reSearch gs r

/-- Group 1 of the real pattern, `([+-]?[0-9]+.)` (the `.` of line 34 is an
unescaped wildcard). -/
def g1real : Matcher := mseq (mseq (mopt (mclass isSignCh)) mDigitsPlus) manyChar

/-- The optional exponent group `(e[+-][0-9]+)?`. -/
def expGroup : Matcher :=
  mopt (mseq (mseq (mclass (· == 'e')) (mclass isSignCh)) mDigitsPlus)

/-- Line 31: `([+-]?[0-9]+)` for integer dtypes. -/
def intMatchers : List Matcher := [mseq (mopt (mclass isSignCh)) mDigitsPlus]

/-- Line 34: `([+-]?[0-9]+.)([0-9]*)(e[+-][0-9]+)?` for floating dtypes. -/
def floatMatchers : List Matcher := [g1real, mDigitsStar, expGroup]

/-- Group 4 of the complex pattern, `([+-][0-9]+.)`: mandatory sign. -/
def g4cplx : Matcher := mseq (mseq (mclass isSignCh) mDigitsPlus) manyChar

/-- Line 37: the seven-group complex pattern. -/
def complexMatchers : List Matcher :=
  [g1real, mDigitsStar, expGroup, g4cplx, mDigitsStar, expGroup, mclass (· == 'j')]

/-- The pattern and the per-group `ljust` tuple selected by the dtype
dispatch of lines 30-40 (`none` = fall through to the `raise`). -/
def kindPattern : Kind → Option (List Matcher × List Nat)
  | .intK => some (intMatchers, [0])
  | .floatK => some (floatMatchers, [0, 1, 1])
  | .complexK => some (complexMatchers, [0, 1, 1, 0, 1, 1, 0])
  | .boolK => none

/-- Whether the dtype is one of the three supported scalar kinds. -/
def supportedKind (k : Kind) : Bool := (kindPattern k).isSome

/-- Python `max(len(s) for s in g)` for a transposed part group.  The groups
produced by `zip(*regroups)` are always non-empty (one element per entry),
where the fold with initial value 0 agrees with Python's `max`. -/
def maxLenOf (g : List String) : Nat :=
  (g.map String.length).foldl Nat.max 0

/-- Lines 16-21, `fmt_entry`: justify each part to its column width and
concatenate.  A part is left justified when its `ljust` flag is truthy
(non-zero), mirroring `part.ljust(ml) if lj else part.rjust(ml)`. -/
def fmt_entry (parts : List String) (maxlens : List Nat) (ljust : List Nat) : String :=
  String.join ((parts.zip (maxlens.zip ljust)).map (fun pml =>
    if pml.2.2 ≠ 0 then pyLjust pml.1 pml.2.1 else pyRjust pml.1 pml.2.1))

/-- Lines 23-48, `fmt_entries`, instrumented with the list of collaborator
calls it makes: the first component is `stringified` (line 26), computed for
every entry, in order, before the dtype dispatch of lines 30-40 runs.  Then
the selected regex is applied to every stringified entry (a failed search
raises AttributeError at `.groups()`), per-part maximum widths are taken
over the transposed groups, and every entry is rebuilt by `fmt_entry`.
The output keeps the input's shape (line 48 reshapes the flat list of
rebuilt entries, one per input entry, back to `arr.shape`). -/
def fmt_entriesTr (a2s : α → String) (dtype : Kind) (arr : NpArray α) :
    List String × Except PyErr (NpArray String) :=
  let stringified := arr.flat.map a2s
  (stringified,
    match kindPattern dtype with
    | none => .error .notImplementedError
    | some pl =>
      match stringified.mapM (fun s => reSearch pl.1 s.toList) with
      | none => .error .attributeError
      | some regroups =>
        let maxlens := (zipStar regroups).map maxLenOf
        .ok ⟨arr.shape, regroups.map (fun t => fmt_entry t maxlens pl.2)⟩)

/-- The result of `fmt_entries` (lines 23-48). -/
def fmt_entries (a2s : α → String) (dtype : Kind) (arr : NpArray α) :
    Except PyErr (NpArray String) :=
  (fmt_entriesTr a2s dtype arr).2

/-- Lines 52-64, `box`: put a unicode box around a list of lines, using the
dashed rules when `dotted`.  `max` of the line widths raises ValueError on an
empty list of lines. -/
def box (lines : List String) (dotted : Bool) : Except PyErr (List String) := do
  let h := if dotted then '╌' else '─'
  let v := if dotted then '┊' else '│'
  let width ← pymax (lines.map String.length)
  let top := String.mk ('┌' :: (List.replicate width h ++ ['┐']))
  let bot := String.mk ('└' :: (List.replicate width h ++ ['┘']))
  let mid := lines.map (fun l => String.mk [v] ++ pyLjust l width ++ String.mk [v])
  return top :: (mid ++ [bot])

/-- Lines 66-70, `vstack`: concatenate the lines of all blocks and pad every
line to the widest. -/
def vstack (blocks : List (List String)) : Except PyErr (List String) := do
  let lines := blocks.flatMap (fun b => b)
  let width ← pymax (lines.map String.length)
  return lines.map (fun l => pyLjust l width)

/-- Lines 72-80, `hstack`: bottom-pad every block to the tallest height with
blank lines of that block's own first-line width (`b[0]` raises IndexError on
an empty block), then join corresponding lines with `' ' * spacing`. -/
def hstack (blocks : List (List String)) (spacing : Nat) : Except PyErr (List String) := do
  let height ← pymax (blocks.map List.length)
  let padded ← blocks.mapM (fun b =>
    match b.head? with
    | none => Except.error PyErr.indexError
    | some l0 =>
      Except.ok (b ++ List.replicate (height - b.length)
        (String.mk (List.replicate l0.length ' '))))
  return (zipStar padded).map (fun lt =>
    String.intercalate (String.mk (List.replicate spacing ' ')) lt)

/-- Lines 82-90, `fmt_arr`, in curried shape/flat form so the recursion is
structural on the shape.  A 0-d array renders as its single entry
(`arr.item()`); a 1-d array renders bracketed, bare, or falls through to the
recursive case when `box_inner_1D` is set; an n-d array renders each
subarray along the outermost axis (shape `rest`, a contiguous slice of
`rest.prod` entries) and stacks them: vertically in a solid box when the
dimensionality is even, horizontally in a (dashed iff `dot_odds`) box when
odd. -/
def fmt_arrAux (bracket_inner_1D box_inner_1D dot_odds : Bool) :
    List Nat → List String → Except PyErr (List String)
  | [], flat => .ok [flat.headD ""]
  | n :: rest, flat =>
    if bracket_inner_1D && rest.isEmpty then
      .ok ["[" ++ String.intercalate " " flat ++ "]"]
    else if !box_inner_1D && rest.isEmpty then
      .ok [String.intercalate " " flat]
    else
      ((List.range n).mapM (fun i =>
        fmt_arrAux bracket_inner_1D box_inner_1D dot_odds rest
          ((flat.drop (i * rest.prod)).take rest.prod))) >>= fun fmtted =>
      if (n :: rest).length % 2 == 0 then
        vstack fmtted >>= fun s => box s false
      else
        hstack fmtted 0 >>= fun s => box s dot_odds

/-- Lines 82-90, `fmt_arr`, on an `NpArray` of formatted entries. -/
def fmt_arr (bracket_inner_1D box_inner_1D dot_odds : Bool) (arr : NpArray String) :
    Except PyErr (List String) :=
  fmt_arrAux bracket_inner_1D box_inner_1D dot_odds arr.shape arr.flat

/-- The formatting pipeline of lines 92-93: force `box_inner_1D` when the
whole input is exactly 1-d, then `fmt_arr (fmt_entries arr)`. -/
def parrLines (a2s : α → String) (dtype : Kind) (arr : NpArray α)
    (dot_odds bracket_inner_1D box_inner_1D : Bool) : Except PyErr (List String) :=
  fmt_entries a2s dtype arr >>= fun g =>
    fmt_arrAux bracket_inner_1D
      (if arr.shape.length == 1 then true else box_inner_1D) dot_odds g.shape g.flat

/-- Lines 4-93, `parr`: the isinstance check of line 12 (TypeError for a
non-array), then the pipeline, then the single `print` of line 93.  The
second component is everything written to stdout: nothing when any stage
raises, the newline-joined lines plus the trailing newline of `print`
otherwise. -/
def parr (a2s : α → String) (dtype : Kind) (v : PyVal α)
    (dot_odds bracket_inner_1D box_inner_1D : Bool) : Except PyErr Unit × String :=
  match v with
  | .other => (.error .typeError, "")
  | .ndarray arr =>
    match parrLines a2s dtype arr dot_odds bracket_inner_1D box_inner_1D with
    | .error e => (.error e, "")
    | .ok lines => (.ok (), String.intercalate "\n" lines ++ "\n")

/-! ### Derived notions used to state the claims -/

/-- The collaborator for integer scalars: `np.array2string` on an int array
prints the decimal representation of the value. -/
def intStr (n : Int) : String := toString n

/-- All lines of a block have the same length. -/
def allSameLength (ls : List String) : Bool :=
  ls.all (fun l => l.length == (ls.headD "").length)

/-- The character of `s` at column `i` (space beyond the end). -/
def charAt (s : String) (i : Nat) : Char := s.toList.getD i ' '

/-- The column of the first sign character of a formatted entry. -/
def signCol (s : String) : Nat := s.toList.findIdx isSignCh

/-- A stringified entry whose captured group ends with a literal decimal
point (the shape every in-grammar real component produces). -/
def endsWithDot (s : String) : Bool := s.toList.getLast? == some '.'

/-- The horizontal border character `box` uses. -/
def hch (dotted : Bool) : Char := if dotted then '╌' else '─'

/-- The vertical border character `box` uses. -/
def vch (dotted : Bool) : Char := if dotted then '┊' else '│'

/-- The top border line emitted by `box` for content width `w`. -/
def borderTop (w : Nat) (h : Char) : String :=
  String.mk ('┌' :: (List.replicate w h ++ ['┐']))

/-- The bottom border line emitted by `box` for content width `w`. -/
def borderBot (w : Nat) (h : Char) : String :=
  String.mk ('└' :: (List.replicate w h ++ ['┘']))

/-- Whether an `Except` result is the UnsupportedKind failure
(`NotImplementedError`, line 40). -/
def isUnsupportedErr : Except PyErr β → Bool
  | .error .notImplementedError => true
  | _ => false

/-! ### Basic facts about strings and justification -/

theorem toList_mk (l : List Char) : (String.mk l).toList = l := rfl

theorem toList_append (a b : String) : (a ++ b).toList = a.toList ++ b.toList :=
  String.data_append a b

theorem length_toList (s : String) : s.toList.length = s.length := rfl

theorem pyLjust_length (s : String) (w : Nat) : (pyLjust s w).length = max s.length w := by
  simp [pyLjust]
  omega

theorem pyRjust_length (s : String) (w : Nat) : (pyRjust s w).length = max s.length w := by
  simp [pyRjust]
  omega

theorem pyLjust_toList (s : String) (w : Nat) :
    (pyLjust s w).toList = s.toList ++ List.replicate (w - s.length) ' ' := by
  simp [pyLjust, toList_append, toList_mk]

theorem pyRjust_toList (s : String) (w : Nat) :
    (pyRjust s w).toList = List.replicate (w - s.length) ' ' ++ s.toList := by
  simp [pyRjust, toList_append, toList_mk]

/-! ### Facts about `pymax` -/

theorem foldl_max_le (r : List Nat) :
    ∀ a : Nat, a ≤ r.foldl Nat.max a ∧ ∀ x ∈ r, x ≤ r.foldl Nat.max a := by
  induction r with
  | nil => intro a; exact ⟨Nat.le_refl _, by simp⟩
  | cons b r ih =>
    intro a
    have h1 := ih (Nat.max a b)
    refine ⟨Nat.le_trans (Nat.le_max_left a b) h1.1, ?_⟩
    intro x hx
    rcases List.mem_cons.mp hx with h | h
    · rw [h]; exact Nat.le_trans (Nat.le_max_right a b) h1.1
    · exact h1.2 x h

theorem foldl_max_mem (r : List Nat) :
    ∀ a, r.foldl Nat.max a = a ∨ r.foldl Nat.max a ∈ r := by
  induction r with
  | nil => simp
  | cons b r ih =>
    intro a
    rcases ih (Nat.max a b) with h | h
    · have hc : a.max b = a ∨ a.max b = b := by
        rcases Nat.le_total a b with hab | hab
        · right; exact Nat.max_eq_right hab
        · left; exact Nat.max_eq_left hab
      rcases hc with hab | hab
      · left; rw [List.foldl_cons, h, hab]
      · right; rw [List.foldl_cons, h, hab]
        exact List.mem_cons_self _ _
    · right; exact List.mem_cons_of_mem _ h

theorem pymax_ok {l : List Nat} (h : l ≠ []) :
    ∃ m, pymax l = .ok m ∧ (∀ x ∈ l, x ≤ m) ∧ m ∈ l := by
  cases l with
  | nil => exact absurd rfl h
  | cons a r =>
    refine ⟨r.foldl Nat.max a, rfl, ?_, ?_⟩
    · intro x hx
      rcases List.mem_cons.mp hx with h | h
      · rw [h]; exact (foldl_max_le r a).1
      · exact (foldl_max_le r a).2 x h
    · rcases foldl_max_mem r a with h | h
      · rw [h]; exact List.mem_cons_self _ _
      · exact List.mem_cons_of_mem _ h

theorem pymax_const {l : List Nat} {w : Nat} (h : l ≠ []) (hc : ∀ x ∈ l, x = w) :
    pymax l = .ok w := by
  obtain ⟨m, hm, hle, hmem⟩ := pymax_ok h
  rw [hm, hc m hmem]

/-! ### `mapM` over `Except` and `Option` -/

theorem exceptMapM_ok {α β : Type} {f : α → Except PyErr β} {Q : β → Prop} :
    ∀ {l : List α}, (∀ a ∈ l, ∃ b, f a = .ok b ∧ Q b) →
      ∃ bs, l.mapM f = .ok bs ∧ bs.length = l.length ∧ ∀ b ∈ bs, Q b := by
  intro l
  induction l with
  | nil => intro _; exact ⟨[], rfl, rfl, by simp⟩
  | cons a l ih =>
    intro h
    obtain ⟨b, hb, hQ⟩ := h a (List.mem_cons_self a l)
    obtain ⟨bs, hbs, hlen, hall⟩ := ih (fun x hx => h x (List.mem_cons_of_mem a hx))
    refine ⟨b :: bs, ?_, by simp [hlen], ?_⟩
    · rw [List.mapM_cons, hb, hbs]; rfl
    · intro x hx
      rcases List.mem_cons.mp hx with h | h
      · subst h; exact hQ
      · exact hall x h

theorem exceptMapM_forall₂ {α β : Type} {f : α → Except PyErr β} :
    ∀ {l : List α} {bs : List β}, l.mapM f = .ok bs →
      List.Forall₂ (fun a b => f a = .ok b) l bs := by
  intro l
  induction l with
  | nil =>
    intro bs h
    simp only [List.mapM_nil] at h
    cases h
    exact List.Forall₂.nil
  | cons a l ih =>
    intro bs h
    rw [List.mapM_cons] at h
    cases hfa : f a with
    | error e => rw [hfa] at h; simp [Bind.bind, Except.bind] at h
    | ok b =>
      rw [hfa] at h
      cases hml : l.mapM f with
      | error e => rw [hml] at h; simp [Bind.bind, Except.bind, Pure.pure] at h
      | ok bs' =>
        rw [hml] at h
        simp [Bind.bind, Except.bind, Pure.pure, Except.pure] at h
        cases h
        exact List.Forall₂.cons hfa (ih hml)

theorem optionMapM_forall₂ {α β : Type} {f : α → Option β} :
    ∀ {l : List α} {bs : List β}, l.mapM f = some bs →
      List.Forall₂ (fun a b => f a = some b) l bs := by
  intro l
  induction l with
  | nil =>
    intro bs h
    simp only [List.mapM_nil] at h
    cases h
    exact List.Forall₂.nil
  | cons a l ih =>
    intro bs h
    rw [List.mapM_cons] at h
    cases hfa : f a with
    | none => rw [hfa] at h; simp [Bind.bind] at h
    | some b =>
      rw [hfa] at h
      cases hml : l.mapM f with
      | none => rw [hml] at h; simp [Bind.bind] at h
      | some bs' =>
        rw [hml] at h
        simp [Bind.bind, Pure.pure] at h
        cases h
        exact List.Forall₂.cons hfa (ih hml)

theorem optionMapM_some {α β : Type} {f : α → Option β} :
    ∀ {l : List α}, (∀ a ∈ l, ∃ b, f a = some b) → ∃ bs, l.mapM f = some bs := by
  intro l
  induction l with
  | nil => intro _; exact ⟨[], rfl⟩
  | cons a l ih =>
    intro h
    obtain ⟨b, hb⟩ := h a (List.mem_cons_self a l)
    obtain ⟨bs, hbs⟩ := ih (fun x hx => h x (List.mem_cons_of_mem a hx))
    refine ⟨b :: bs, ?_⟩
    rw [List.mapM_cons, hb, hbs]
    rfl

theorem forall₂_mem_left {α β : Type} {R : α → β → Prop} {l1 : List α} {l2 : List β}
    (h : List.Forall₂ R l1 l2) : ∀ a ∈ l1, ∃ b ∈ l2, R a b := by
  induction h with
  | nil => simp
  | cons hR hF ih =>
    intro x hx
    rcases List.mem_cons.mp hx with h | h
    · subst h; exact ⟨_, List.mem_cons_self _ _, hR⟩
    · obtain ⟨b, hb, hRb⟩ := ih x h
      exact ⟨b, List.mem_cons_of_mem _ hb, hRb⟩

theorem forall₂_mem_right {α β : Type} {R : α → β → Prop} {l1 : List α} {l2 : List β}
    (h : List.Forall₂ R l1 l2) : ∀ b ∈ l2, ∃ a ∈ l1, R a b := by
  induction h with
  | nil => simp
  | cons hR hF ih =>
    intro y hy
    rcases List.mem_cons.mp hy with h | h
    · subst h; exact ⟨_, List.mem_cons_self _ _, hR⟩
    · obtain ⟨a, ha, hRa⟩ := ih y h
      exact ⟨a, List.mem_cons_of_mem _ ha, hRa⟩

/-! ### Facts about `zipStar` -/

theorem zipStar_cons {α : Type} {ts : List (List α)} (hne : ts ≠ [])
    (hall : ∀ t ∈ ts, t ≠ []) :
    ∃ hs, ts.mapM List.head? = some hs ∧
      zipStar ts = hs :: zipStar (ts.map List.tail) := by
  obtain ⟨t0, r, rfl⟩ : ∃ t0 r, ts = t0 :: r := by
    cases ts with
    | nil => exact absurd rfl hne
    | cons t0 r => exact ⟨t0, r, rfl⟩
  obtain ⟨a, t0', rfl⟩ : ∃ a t0', t0 = a :: t0' := by
    have h0 := hall t0 (List.mem_cons_self _ _)
    cases t0 with
    | nil => exact absurd rfl h0
    | cons a t0' => exact ⟨a, t0', rfl⟩
  obtain ⟨hs, hhs⟩ := optionMapM_some (f := List.head?) (l := (a :: t0') :: r)
    (fun t ht => by
      have h0 := hall t ht
      cases t with
      | nil => exact absurd rfl h0
      | cons x xs => exact ⟨x, rfl⟩)
  refine ⟨hs, hhs, ?_⟩
  have hL : zipStar ((a :: t0') :: r) = zipStarAux (t0'.length + 1) ((a :: t0') :: r) := by
    simp [zipStar]
  have hR : zipStar (((a :: t0') :: r).map List.tail) =
      zipStarAux t0'.length (((a :: t0') :: r).map List.tail) := by
    simp [zipStar]
  rw [hL, hR]
  show zipStarAux (t0'.length + 1) _ = _
  rw [zipStarAux, hhs]

theorem zipStar_rect {α : Type} {k : Nat} :
    ∀ {ts : List (List α)}, (∀ t ∈ ts, t.length = k) →
      ∀ t ∈ ts, List.Forall₂ (fun x g => x ∈ g) t (zipStar ts) := by
  induction k with
  | zero =>
    intro ts hall t ht
    have ht0 : t = [] := List.length_eq_zero.mp (hall t ht)
    subst ht0
    have hz : zipStar ts = [] := by
      cases ts with
      | nil => rfl
      | cons t0 r =>
        have h0 : t0.length = 0 := hall t0 (List.mem_cons_self _ _)
        simp [zipStar, h0, zipStarAux]
    rw [hz]
    exact List.Forall₂.nil
  | succ k ih =>
    intro ts hall t ht
    have hne : ts ≠ [] := by
      intro h
      subst h
      simp at ht
    have hallne : ∀ u ∈ ts, u ≠ [] := by
      intro u hu h
      subst h
      exact absurd (hall [] hu) (by simp)
    obtain ⟨hs, hhs, heq⟩ := zipStar_cons hne hallne
    rw [heq]
    obtain ⟨a, t', rfl⟩ : ∃ a t', t = a :: t' := by
      have h0 := hall t ht
      cases t with
      | nil => simp at h0
      | cons a t' => exact ⟨a, t', rfl⟩
    have hF : List.Forall₂ (fun u h => List.head? u = some h) ts hs := optionMapM_forall₂ hhs
    have ha : a ∈ hs := by
      obtain ⟨b, hb, hRb⟩ := forall₂_mem_left hF (a :: t') ht
      simp only [List.head?_cons, Option.some.injEq] at hRb
      rw [hRb]
      exact hb
    have ht' : t' ∈ ts.map List.tail := by
      have : t' = List.tail (a :: t') := rfl
      rw [this]
      exact List.mem_map_of_mem List.tail ht
    have hlen' : ∀ u ∈ ts.map List.tail, u.length = k := by
      intro u hu
      obtain ⟨v, hv, rfl⟩ := List.mem_map.mp hu
      have hvl := hall v hv
      cases v with
      | nil => simp at hvl
      | cons x xs =>
        simp only [List.length_cons, Nat.succ.injEq] at hvl
        simpa using hvl
    exact List.Forall₂.cons ha (ih hlen' t' ht')

theorem zipStar_ne {α : Type} {ts : List (List α)} (hne : ts ≠ [])
    (hall : ∀ t ∈ ts, t ≠ []) : zipStar ts ≠ [] := by
  obtain ⟨hs, _, heq⟩ := zipStar_cons hne hall
  rw [heq]
  exact List.cons_ne_nil _ _

/-! ### Facts about the block operations -/

theorem except_bind_ok {α β : Type} (a : α) (f : α → Except PyErr β) :
    (Except.ok a >>= f) = f a := rfl

theorem except_bind_error {α β : Type} (e : PyErr) (f : α → Except PyErr β) :
    ((Except.error e : Except PyErr α) >>= f) = .error e := rfl

theorem allSameLength_of {ls : List String} {w : Nat} (h : ∀ l ∈ ls, l.length = w) :
    allSameLength ls = true := by
  cases ls with
  | nil => rfl
  | cons a r =>
    simp only [allSameLength, List.all_eq_true, List.headD_cons, beq_iff_eq]
    intro l hl
    rw [h l hl, h a (List.mem_cons_self _ _)]

theorem box_props {lines : List String} (dotted : Bool) (hne : lines ≠ []) :
    ∃ w out, box lines dotted = .ok out ∧
      out = borderTop w (hch dotted) ::
        (lines.map (fun l => String.mk [vch dotted] ++ pyLjust l w ++ String.mk [vch dotted]) ++
          [borderBot w (hch dotted)]) ∧
      (∀ l ∈ lines, l.length ≤ w) ∧ w ∈ lines.map String.length ∧
      (∀ s ∈ out, s.length = w + 2) ∧ out ≠ [] := by
  obtain ⟨w, hmax, hle, hwmem⟩ := pymax_ok (l := lines.map String.length) (by simpa using hne)
  have hlew : ∀ l ∈ lines, l.length ≤ w := fun l hl => hle _ (List.mem_map_of_mem _ hl)
  refine ⟨w, _, ?_, rfl, hlew, hwmem, ?_, List.cons_ne_nil _ _⟩
  · simp only [box, hch, vch, borderTop, borderBot, hmax, except_bind_ok]
    rfl
  · intro s hs
    rcases List.mem_cons.mp hs with h | h
    · rw [h]
      simp [borderTop]
      try omega
    · rcases List.mem_append.mp h with h | h
      · obtain ⟨l, hl, rfl⟩ := List.mem_map.mp h
        have := hlew l hl
        simp [pyLjust_length]
        omega
      · rw [List.mem_singleton.mp h]
        simp [borderBot]
        try omega

theorem vstack_props {blocks : List (List String)} (hne : ∃ b ∈ blocks, b ≠ []) :
    ∃ w out, vstack blocks = .ok out ∧ out ≠ [] ∧ ∀ l ∈ out, l.length = w := by
  obtain ⟨b, hb, hbne⟩ := hne
  have hlne : blocks.flatMap (fun b => b) ≠ [] := by
    obtain ⟨x, hx⟩ : ∃ x, x ∈ b := by
      cases b with
      | nil => exact absurd rfl hbne
      | cons x r => exact ⟨x, List.mem_cons_self _ _⟩
    exact List.ne_nil_of_mem (List.mem_flatMap_of_mem hb hx)
  obtain ⟨w, hmax, hle, _⟩ :=
    pymax_ok (l := (blocks.flatMap (fun b => b)).map String.length) (by simpa using hlne)
  refine ⟨w, (blocks.flatMap (fun b => b)).map (fun l => pyLjust l w), ?_, ?_, ?_⟩
  · simp only [vstack, hmax, except_bind_ok]
    rfl
  · simpa using hlne
  · intro l hl
    obtain ⟨l0, hl0, rfl⟩ := List.mem_map.mp hl
    have := hle _ (List.mem_map_of_mem _ hl0)
    simp [pyLjust_length]
    omega

theorem hstack_props {blocks : List (List String)} (hne : blocks ≠ [])
    (hall : ∀ b ∈ blocks, b ≠ []) :
    ∃ out, hstack blocks 0 = .ok out ∧ out ≠ [] := by
  obtain ⟨ht, hmax, hle, hmem⟩ := pymax_ok (l := blocks.map List.length) (by simpa using hne)
  obtain ⟨padded, hpad, hlenp, hallp⟩ :=
    exceptMapM_ok (l := blocks) (Q := fun p => p ≠ [] ∧ p.length = ht)
      (f := fun b =>
        match b.head? with
        | none => Except.error PyErr.indexError
        | some l0 =>
          Except.ok (b ++ List.replicate (ht - b.length)
            (String.mk (List.replicate l0.length ' '))))
      (by
        intro b hb
        have hbne := hall b hb
        have hble : b.length ≤ ht := hle _ (List.mem_map_of_mem _ hb)
        cases b with
        | nil => exact absurd rfl hbne
        | cons x r =>
          refine ⟨_, rfl, ?_, ?_⟩
          · exact List.append_ne_nil_of_left_ne_nil (List.cons_ne_nil _ _) _
          · simp only [List.length_append, List.length_replicate]
            simp at hble
            simp
            omega)
  have hpadne : padded ≠ [] := by
    intro h
    rw [h] at hlenp
    simp at hlenp
    exact hne (List.length_eq_zero.mp hlenp.symm)
  have hzne : zipStar padded ≠ [] :=
    zipStar_ne hpadne (fun p hp => (hallp p hp).1)
  refine ⟨(zipStar padded).map (fun lt =>
    String.intercalate (String.mk (List.replicate 0 ' ')) lt), ?_, ?_⟩
  · simp only [hstack, hmax, except_bind_ok, hpad]
    rfl
  · simpa using hzne

/-- Total correctness of the layout recursion on any non-empty shape: it
succeeds and yields a non-empty block of equal-length lines. -/
theorem fmt_arrAux_total (br bx d : Bool) :
    ∀ (sh : List Nat) (flat : List String), 0 < sh.prod →
      ∃ out, fmt_arrAux br bx d sh flat = .ok out ∧ out ≠ [] ∧
        ∃ w, ∀ l ∈ out, l.length = w := by
  intro sh
  induction sh with
  | nil =>
    intro flat _
    exact ⟨[flat.headD ""], rfl, by simp, ⟨(flat.headD "").length, by simp⟩⟩
  | cons n rest ih =>
    intro flat hpos
    have hn : 0 < n := by
      rcases Nat.eq_zero_or_pos n with h | h
      · subst h; simp [List.prod_cons] at hpos
      · exact h
    have hrest : 0 < rest.prod := by
      rcases Nat.eq_zero_or_pos rest.prod with h | h
      · rw [List.prod_cons, h, Nat.mul_zero] at hpos
        exact absurd hpos (by simp)
      · exact h
    rw [fmt_arrAux]
    by_cases hb1 : (br && rest.isEmpty) = true
    · rw [if_pos hb1]
      exact ⟨_, rfl, List.cons_ne_nil _ _,
        ("[" ++ String.intercalate " " flat ++ "]").length, by simp⟩
    · rw [if_neg hb1]
      by_cases hb2 : (!bx && rest.isEmpty) = true
      · rw [if_pos hb2]
        exact ⟨_, rfl, List.cons_ne_nil _ _,
          (String.intercalate " " flat).length, by simp⟩
      · rw [if_neg hb2]
        obtain ⟨fmtted, hfmt, hflen, hfne⟩ :=
          exceptMapM_ok (l := List.range n) (Q := fun b => b ≠ [])
            (f := fun i => fmt_arrAux br bx d rest ((flat.drop (i * rest.prod)).take rest.prod))
            (by
              intro i _
              obtain ⟨out, hout, houtne, _⟩ := ih ((flat.drop (i * rest.prod)).take rest.prod) hrest
              exact ⟨out, hout, houtne⟩)
        rw [hfmt, except_bind_ok]
        have hfmtne : fmtted ≠ [] := by
          intro h
          rw [h] at hflen
          simp at hflen
          omega
        by_cases hpar : ((n :: rest).length % 2 == 0) = true
        · rw [if_pos hpar]
          have hvex : ∃ b ∈ fmtted, b ≠ [] := by
            cases fmtted with
            | nil => exact absurd rfl hfmtne
            | cons b r => exact ⟨b, List.mem_cons_self _ _, hfne b (List.mem_cons_self _ _)⟩
          obtain ⟨wv, outv, hv, hvne, hvlen⟩ := vstack_props hvex
          rw [hv, except_bind_ok]
          obtain ⟨w, out, hbox, _, _, _, hlen, hone⟩ := box_props false hvne
          exact ⟨out, hbox, hone, w + 2, hlen⟩
        · rw [if_neg hpar]
          obtain ⟨outh, hh, hhne⟩ := hstack_props hfmtne hfne
          rw [hh, except_bind_ok]
          obtain ⟨w, out, hbox, _, _, _, hlen, hone⟩ := box_props d hhne
          exact ⟨out, hbox, hone, w + 2, hlen⟩

/-! ### Positional helpers for characters inside built lines -/

theorem getD_append_of_le {α : Type} {l1 l2 : List α} {i : Nat} (dflt : α)
    (h : l1.length ≤ i) : (l1 ++ l2).getD i dflt = l2.getD (i - l1.length) dflt := by
  simp [List.getD_eq_getElem?_getD, List.getElem?_append_right h]

theorem getD_append_of_lt {α : Type} {l1 l2 : List α} {i : Nat} (dflt : α)
    (h : i < l1.length) : (l1 ++ l2).getD i dflt = l1.getD i dflt := by
  simp [List.getD_eq_getElem?_getD, List.getElem?_append_left h]

theorem pyLjust_eq_self {s : String} {w : Nat} (h : s.length = w) : pyLjust s w = s := by
  rw [pyLjust, h, Nat.sub_self]
  simp

theorem vwrap_charAt {v : Char} {s : String} {w : Nat} (hl : s.length = w) :
    charAt (String.mk [v] ++ s ++ String.mk [v]) 0 = v ∧
      charAt (String.mk [v] ++ s ++ String.mk [v]) (w + 1) = v := by
  have hto : (String.mk [v] ++ s ++ String.mk [v]).toList = (v :: s.toList) ++ [v] := by
    rw [toList_append, toList_append, toList_mk, toList_mk]
    rfl
  constructor
  · rw [charAt, hto]
    rfl
  · rw [charAt, hto, getD_append_of_le]
    · have : w + 1 - (v :: s.toList).length = 0 := by
        simp [length_toList, hl]
      rw [this]
      rfl
    · simp [length_toList, hl]

theorem exceptMapM_pure {α β : Type} (g : α → β) (l : List α) :
    l.mapM (fun a => (Except.ok (g a) : Except PyErr β)) = .ok (l.map g) := by
  induction l with
  | nil => rfl
  | cons a l ih =>
    rw [List.mapM_cons, ih]
    rfl

/-- The layout of a whole 1-D input: `parr` forces `box_inner_1D`, so with
`bracket_inner_1D` unset and a positive extent, the row goes through the
odd-parity recursive case and comes back as a full border box whose rules
are dashed exactly when `dot_odds` is set. -/
theorem layout_1d_boxed (d : Bool) (n : Nat) (flat : List String) (hn : 0 < n) :
    ∃ w mid, fmt_arrAux false true d [n] flat =
      .ok (borderTop w (hch d) :: (mid ++ [borderBot w (hch d)])) ∧
      ∀ l ∈ mid, charAt l 0 = vch d ∧ charAt l (w + 1) = vch d ∧ l.length = w + 2 := by
  rw [fmt_arrAux]
  simp only [Bool.false_and, Bool.not_true, Bool.and_self, Bool.false_eq_true, if_false]
  have hsub : ((List.range n).mapM (fun i =>
      fmt_arrAux false true d [] ((flat.drop (i * List.prod [])).take (List.prod [])))) =
      .ok ((List.range n).map (fun i =>
        [((flat.drop (i * List.prod [])).take (List.prod [])).headD ""])) := by
    rw [show (fun i => fmt_arrAux false true d []
        ((flat.drop (i * List.prod [])).take (List.prod []))) = (fun i =>
          Except.ok [((flat.drop (i * List.prod [])).take (List.prod [])).headD ""]) from ?_]
    · exact exceptMapM_pure _ _
    · funext i
      rw [fmt_arrAux]
  rw [hsub, except_bind_ok]
  rw [if_neg (by simp)]
  have hfne : ((List.range n).map (fun i =>
      [((flat.drop (i * List.prod [])).take (List.prod [])).headD ""])) ≠ [] := by
    simp [List.map_eq_nil_iff, List.range_eq_nil]
    omega
  obtain ⟨outh, hh, hhne⟩ := hstack_props hfne (by
    intro b hb
    obtain ⟨i, _, rfl⟩ := List.mem_map.mp hb
    exact List.cons_ne_nil _ _)
  rw [hh, except_bind_ok]
  obtain ⟨w, out, hbox, hout, hlew, _, hlen, _⟩ := box_props d hhne
  refine ⟨w, outh.map (fun l => String.mk [vch d] ++ pyLjust l w ++ String.mk [vch d]),
    by rw [hbox, hout], ?_⟩
  intro l hl
  obtain ⟨l0, hl0, rfl⟩ := List.mem_map.mp hl
  have hlj : (pyLjust l0 w).length = w := by
    rw [pyLjust_length]
    have := hlew l0 hl0
    omega
  obtain ⟨hc0, hc1⟩ := vwrap_charAt (v := vch d) hlj
  refine ⟨hc0, hc1, ?_⟩
  simp [hlj]
  omega

/-- Unfolding of `fmt_entries` at an unsupported dtype. -/
theorem fmt_entries_unfold_none {α : Type} {a2s : α → String} {k : Kind}
    {arr : NpArray α} (hkp : kindPattern k = none) :
    fmt_entries a2s k arr = .error .notImplementedError := by
  have h0 : fmt_entries a2s k arr = (match kindPattern k with
      | none => Except.error PyErr.notImplementedError
      | some pl =>
        match (arr.flat.map a2s).mapM (fun s => reSearch pl.1 s.toList) with
        | none => Except.error PyErr.attributeError
        | some regroups =>
          Except.ok ⟨arr.shape,
            regroups.map (fun t => fmt_entry t ((zipStar regroups).map maxLenOf) pl.2)⟩) := rfl
  rw [h0, hkp]

/-- Unfolding of `fmt_entries` at a supported dtype. -/
theorem fmt_entries_unfold_some {α : Type} {a2s : α → String} {k : Kind}
    {arr : NpArray α} {pl : List Matcher × List Nat} (hkp : kindPattern k = some pl) :
    fmt_entries a2s k arr =
      (match (arr.flat.map a2s).mapM (fun s => reSearch pl.1 s.toList) with
      | none => Except.error PyErr.attributeError
      | some regroups =>
        Except.ok ⟨arr.shape,
          regroups.map (fun t => fmt_entry t ((zipStar regroups).map maxLenOf) pl.2)⟩) := by
  have h0 : fmt_entries a2s k arr = (match kindPattern k with
      | none => Except.error PyErr.notImplementedError
      | some pl =>
        match (arr.flat.map a2s).mapM (fun s => reSearch pl.1 s.toList) with
        | none => Except.error PyErr.attributeError
        | some regroups =>
          Except.ok ⟨arr.shape,
            regroups.map (fun t => fmt_entry t ((zipStar regroups).map maxLenOf) pl.2)⟩) := rfl
  rw [h0, hkp]

/-- `fmt_entries` preserves the shape and the number of entries. -/
theorem fmt_entries_shape {α : Type} {a2s : α → String} {k : Kind} {arr : NpArray α}
    {g : NpArray String} (h : fmt_entries a2s k arr = .ok g) :
    g.shape = arr.shape ∧ g.flat.length = arr.flat.length := by
  cases hkp : kindPattern k with
  | none =>
    rw [fmt_entries_unfold_none hkp] at h
    cases h
  | some pl =>
    rw [fmt_entries_unfold_some hkp] at h
    cases hm : (arr.flat.map a2s).mapM (fun s => reSearch pl.1 s.toList) with
    | none => rw [hm] at h; cases h
    | some rg =>
      rw [hm] at h
      cases h
      have hlen : rg.length = (arr.flat.map a2s).length :=
        ((optionMapM_forall₂ hm).length_eq).symm
      refine ⟨rfl, ?_⟩
      simpa using hlen

/-! ### Facts about the regex engine and the aligned entries -/

theorem head?_mem {α : Type} {l : List α} {a : α} (h : l.head? = some a) : a ∈ l := by
  cases l with
  | nil => cases h
  | cons x r =>
    simp only [List.head?_cons, Option.some.injEq] at h
    rw [← h]
    exact List.mem_cons_self _ _

theorem matchGroups_length {gs : List Matcher} :
    ∀ {cs : List Char} {pr : List String × List Char},
      pr ∈ matchGroups gs cs → pr.1.length = gs.length := by
  induction gs with
  | nil =>
    intro cs pr h
    simp only [matchGroups, List.mem_singleton] at h
    rw [h]
    rfl
  | cons gm gs ih =>
    intro cs pr h
    simp only [matchGroups, List.mem_flatMap] at h
    obtain ⟨x, hx, hpr⟩ := h
    obtain ⟨q, hq, rfl⟩ := List.mem_map.mp hpr
    simp only [List.length_cons]
    rw [ih hq]

theorem reSearch_length {gs : List Matcher} :
    ∀ {cs : List Char} {r : List String}, reSearch gs cs = some r → r.length = gs.length := by
  intro cs
  induction cs with
  | nil =>
    intro r h
    simp only [reSearch] at h
    cases hh : (matchGroups gs []).head? with
    | none => rw [hh] at h; cases h
    | some pr =>
      rw [hh] at h
      simp only [Option.map_some'] at h
      cases h
      exact matchGroups_length (head?_mem hh)
  | cons c cs ih =>
    intro r h
    rw [reSearch] at h
    cases hh : (matchGroups gs (c :: cs)).head? with
    | none => rw [hh] at h; exact ih h
    | some pr =>
      rw [hh] at h
      cases h
      exact matchGroups_length (head?_mem hh)

/-- Inversion of a successful `fmt_entries` run. -/
theorem fmt_entries_ok_inv {α : Type} {a2s : α → String} {k : Kind} {arr : NpArray α}
    {g : NpArray String} {pl : List Matcher × List Nat}
    (hkp : kindPattern k = some pl) (hok : fmt_entries a2s k arr = .ok g) :
    ∃ regroups, (arr.flat.map a2s).mapM (fun s => reSearch pl.1 s.toList) = some regroups ∧
      g = ⟨arr.shape,
        regroups.map (fun t => fmt_entry t ((zipStar regroups).map maxLenOf) pl.2)⟩ := by
  rw [fmt_entries_unfold_some hkp] at hok
  cases hm : (arr.flat.map a2s).mapM (fun s => reSearch pl.1 s.toList) with
  | none => rw [hm] at hok; cases hok
  | some rg =>
    rw [hm] at hok
    cases hok
    exact ⟨rg, rfl, rfl⟩

theorem regroups_facts {α : Type} {a2s : α → String} {ms : List Matcher}
    {arr : NpArray α} {regroups : List (List String)}
    (hm : (arr.flat.map a2s).mapM (fun s => reSearch ms s.toList) = some regroups) :
    ∀ t ∈ regroups, t.length = ms.length ∧
      ∃ s ∈ arr.flat.map a2s, reSearch ms s.toList = some t := by
  have hF := optionMapM_forall₂ hm
  intro t ht
  obtain ⟨s, hs, hR⟩ := forall₂_mem_right hF t ht
  exact ⟨reSearch_length hR, s, hs, hR⟩

theorem maxLenOf_bound {s : String} {grp : List String} (h : s ∈ grp) :
    s.length ≤ maxLenOf grp := by
  have hmem : s.length ∈ grp.map String.length := List.mem_map_of_mem _ h
  exact (foldl_max_le _ 0).2 _ hmem

/-- Every part of an entry is bounded by the per-role maximum width computed
over the whole grid. -/
theorem entry_bounds {t : List String} {regroups : List (List String)} {kk : Nat}
    (hlenall : ∀ u ∈ regroups, u.length = kk) (ht : t ∈ regroups) :
    List.Forall₂ (fun s m => s.length ≤ m) t ((zipStar regroups).map maxLenOf) := by
  have hmem := zipStar_rect hlenall t ht
  rw [List.forall₂_map_right_iff]
  exact hmem.imp (fun a b hab => maxLenOf_bound hab)


theorem charAt_append_right {a b : String} {i : Nat} (h : a.length ≤ i) :
    charAt (a ++ b) i = charAt b (i - a.length) := by
  rw [charAt, charAt, toList_append, getD_append_of_le _ (by rw [length_toList]; exact h)]
  rw [length_toList]

theorem charAt_append_left {a b : String} {i : Nat} (h : i < a.length) :
    charAt (a ++ b) i = charAt a i := by
  rw [charAt, charAt, toList_append, getD_append_of_lt _ (by rw [length_toList]; exact h)]

/-- The last character of a right-justified field sits at the last column of
that field. -/
theorem rjust_last_char {s : String} {w : Nat} {c : Char}
    (hs : s.toList.getLast? = some c) (hle : s.length ≤ w) :
    charAt (pyRjust s w) (w - 1) = c ∧ 1 ≤ w := by
  have hne : s.toList ≠ [] := by
    intro h
    rw [h] at hs
    cases hs
  have hpos : 1 ≤ s.length := by
    rw [← length_toList]
    exact List.length_pos.mpr hne
  refine ⟨?_, by omega⟩
  rw [charAt, pyRjust_toList]
  rw [getD_append_of_le _ (by simp; omega)]
  have hidx : w - 1 - (List.replicate (w - s.length) ' ').length = s.toList.length - 1 := by
    simp [length_toList]
    omega
  rw [hidx]
  rw [List.getD_eq_getElem?_getD, ← List.getLast?_eq_getElem?, hs]
  rfl

/-- Closed form of `fmt_entry` for the single integer part. -/
theorem fmt_entry_one (t0 : String) (m0 : Nat) :
    fmt_entry [t0] [m0] [0] = pyRjust t0 m0 := by
  simp [fmt_entry, String.join]

/-- Closed form of `fmt_entry` for the three real parts. -/
theorem fmt_entry_three (t0 t1 t2 : String) (m0 m1 m2 : Nat) :
    fmt_entry [t0, t1, t2] [m0, m1, m2] [0, 1, 1] =
      pyRjust t0 m0 ++ pyLjust t1 m1 ++ pyLjust t2 m2 := by
  simp [fmt_entry, String.join]

/-- Closed form of `fmt_entry` for the seven complex parts. -/
theorem fmt_entry_seven (t0 t1 t2 t3 t4 t5 t6 : String) (m0 m1 m2 m3 m4 m5 m6 : Nat) :
    fmt_entry [t0, t1, t2, t3, t4, t5, t6] [m0, m1, m2, m3, m4, m5, m6]
        [0, 1, 1, 0, 1, 1, 0] =
      pyRjust t0 m0 ++ pyLjust t1 m1 ++ pyLjust t2 m2 ++ pyRjust t3 m3 ++
        pyLjust t4 m4 ++ pyLjust t5 m5 ++ pyRjust t6 m6 := by
  simp [fmt_entry, String.join]

/-- Width and decimal-point column of an aligned real entry. -/
theorem float_entry_props {t0 t1 t2 : String} {m0 m1 m2 : Nat}
    (h0 : t0.length ≤ m0) (h1 : t1.length ≤ m1) (h2 : t2.length ≤ m2)
    (hdot : t0.toList.getLast? = some '.') :
    (fmt_entry [t0, t1, t2] [m0, m1, m2] [0, 1, 1]).length = m0 + m1 + m2 ∧
      charAt (fmt_entry [t0, t1, t2] [m0, m1, m2] [0, 1, 1]) (m0 - 1) = '.' := by
  rw [fmt_entry_three]
  have hA : (pyRjust t0 m0).length = m0 := by rw [pyRjust_length]; omega
  have hB : (pyLjust t1 m1).length = m1 := by rw [pyLjust_length]; omega
  have hC : (pyLjust t2 m2).length = m2 := by rw [pyLjust_length]; omega
  obtain ⟨hc, hw⟩ := rjust_last_char hdot h0
  constructor
  · simp [hA, hB, hC]
  · rw [charAt_append_left (by simp [hA, hB]; omega), charAt_append_left (by rw [hA]; omega)]
    exact hc

/-- Width of an aligned integer entry. -/
theorem int_entry_props {t0 : String} {m0 : Nat} (h0 : t0.length ≤ m0) :
    (fmt_entry [t0] [m0] [0]).length = m0 := by
  rw [fmt_entry_one, pyRjust_length]
  omega

/-- Width and both decimal-point columns of an aligned complex entry. -/
theorem complex_entry_props {t0 t1 t2 t3 t4 t5 t6 : String}
    {m0 m1 m2 m3 m4 m5 m6 : Nat}
    (h0 : t0.length ≤ m0) (h1 : t1.length ≤ m1) (h2 : t2.length ≤ m2)
    (h3 : t3.length ≤ m3) (h4 : t4.length ≤ m4) (h5 : t5.length ≤ m5)
    (h6 : t6.length ≤ m6)
    (hd0 : t0.toList.getLast? = some '.') (hd3 : t3.toList.getLast? = some '.') :
    (fmt_entry [t0, t1, t2, t3, t4, t5, t6] [m0, m1, m2, m3, m4, m5, m6]
        [0, 1, 1, 0, 1, 1, 0]).length = m0 + m1 + m2 + m3 + m4 + m5 + m6 ∧
      charAt (fmt_entry [t0, t1, t2, t3, t4, t5, t6] [m0, m1, m2, m3, m4, m5, m6]
        [0, 1, 1, 0, 1, 1, 0]) (m0 - 1) = '.' ∧
      charAt (fmt_entry [t0, t1, t2, t3, t4, t5, t6] [m0, m1, m2, m3, m4, m5, m6]
        [0, 1, 1, 0, 1, 1, 0]) (m0 + m1 + m2 + m3 - 1) = '.' ∧
      m0 - 1 < m0 + m1 + m2 + m3 - 1 := by
  rw [fmt_entry_seven]
  have hA : (pyRjust t0 m0).length = m0 := by rw [pyRjust_length]; omega
  have hB : (pyLjust t1 m1).length = m1 := by rw [pyLjust_length]; omega
  have hC : (pyLjust t2 m2).length = m2 := by rw [pyLjust_length]; omega
  have hD : (pyRjust t3 m3).length = m3 := by rw [pyRjust_length]; omega
  have hE : (pyLjust t4 m4).length = m4 := by rw [pyLjust_length]; omega
  have hF : (pyLjust t5 m5).length = m5 := by rw [pyLjust_length]; omega
  have hG : (pyRjust t6 m6).length = m6 := by rw [pyRjust_length]; omega
  obtain ⟨hc0, hw0⟩ := rjust_last_char hd0 h0
  obtain ⟨hc3, hw3⟩ := rjust_last_char hd3 h3
  refine ⟨by simp [hA, hB, hC, hD, hE, hF, hG], ?_, ?_, by omega⟩
  · rw [charAt_append_left (by simp [hA, hB, hC, hD, hE, hF]; omega),
      charAt_append_left (by simp [hA, hB, hC, hD, hE]; omega),
      charAt_append_left (by simp [hA, hB, hC, hD]; omega),
      charAt_append_left (by simp [hA, hB, hC]; omega),
      charAt_append_left (by simp [hA, hB]; omega),
      charAt_append_left (by rw [hA]; omega)]
    exact hc0
  · rw [charAt_append_left (by simp [hA, hB, hC, hD, hE, hF]; omega),
      charAt_append_left (by simp [hA, hB, hC, hD, hE]; omega),
      charAt_append_left (by simp [hA, hB, hC, hD]; omega)]
    have hpre : ((pyRjust t0 m0 ++ pyLjust t1 m1) ++ pyLjust t2 m2).length = m0 + m1 + m2 := by
      simp [hA, hB, hC]
    rw [charAt_append_right (by rw [hpre]; omega), hpre]
    have hidx : m0 + m1 + m2 + m3 - 1 - (m0 + m1 + m2) = m3 - 1 := by omega
    rw [hidx]
    exact hc3

theorem length_eq_seven {α : Type} {l : List α} (h : l.length = 7) :
    ∃ a b c d e f g, l = [a, b, c, d, e, f, g] := by
  rcases l with _ | ⟨a, _ | ⟨b, _ | ⟨c, _ | ⟨d, _ | ⟨e, _ | ⟨f, _ | ⟨g, _ | ⟨x, t⟩⟩⟩⟩⟩⟩⟩⟩
  all_goals simp only [List.length_cons, List.length_nil] at h
  all_goals first
    | omega
    | exact ⟨a, b, c, d, e, f, g, rfl⟩

/-! ### The claims -/

/-- C2: for every non-empty grid of aligned entries (all dimension extents
positive), the Layout Engine `fmt_arr` succeeds and every line of its final
output block has identical length — the output is never ragged. -/
theorem claim_C2_layout_never_ragged (br bx d : Bool) (arr : NpArray String)
    (h : 0 < arr.shape.prod) :
    ∃ out, fmt_arr br bx d arr = .ok out ∧ out ≠ [] ∧ allSameLength out = true := by
  obtain ⟨out, hok, hne, w, hw⟩ := fmt_arrAux_total br bx d arr.shape arr.flat h
  exact ⟨out, hok, hne, allSameLength_of hw⟩

/-- Witness for C2 at the 2x2 grid of entries a b / c d. -/
theorem claim_C2_witness :
    0 < (NpArray.mk [2, 2] ["a", "b", "c", "d"]).shape.prod ∧
      ∃ out, fmt_arr false false true ⟨[2, 2], ["a", "b", "c", "d"]⟩ = .ok out ∧
        out ≠ [] ∧ allSameLength out = true :=
  ⟨by decide,
    claim_C2_layout_never_ragged false false true ⟨[2, 2], ["a", "b", "c", "d"]⟩ (by decide)⟩

/-- C3: for a grid of dimensionality at least 2, the outermost layout
operation renders the subarrays along the outer axis and then stacks them
vertically inside a solid box exactly when the dimensionality is even, and
horizontally inside a box that is dashed exactly when dot_odds is set when
the dimensionality is odd. -/
theorem claim_C3_depth_parity (br bx d : Bool) (n m : Nat) (rest : List Nat)
    (flat : List String) :
    fmt_arr br bx d ⟨n :: m :: rest, flat⟩ =
      ((List.range n).mapM (fun i =>
        fmt_arrAux br bx d (m :: rest)
          ((flat.drop (i * (m :: rest).prod)).take (m :: rest).prod)) >>= fun fmtted =>
        if (n :: m :: rest).length % 2 == 0 then
          vstack fmtted >>= fun s => box s false
        else
          hstack fmtted 0 >>= fun s => box s d) := by
  show fmt_arrAux br bx d (n :: m :: rest) flat = _
  rw [fmt_arrAux]
  simp

/-- C9: whenever any stage of `parr` raises (TypeError, UnsupportedKind,
a collaborator contract violation, or any layout failure), nothing at all is
written to standard output. -/
theorem claim_C9_no_partial_output {α : Type} (a2s : α → String) (k : Kind)
    (v : PyVal α) (d br bx : Bool) (e : PyErr)
    (h : (parr a2s k v d br bx).1 = .error e) :
    (parr a2s k v d br bx).2 = "" := by
  cases v with
  | other => rfl
  | ndarray arr =>
    have hred : parr a2s k (PyVal.ndarray arr) d br bx =
        (match parrLines a2s k arr d br bx with
          | .error e => (Except.error e, "")
          | .ok lines => (Except.ok (), String.intercalate "\n" lines ++ "\n")) := rfl
    rw [hred] at h ⊢
    cases hp : parrLines a2s k arr d br bx with
    | error e2 => rfl
    | ok lines =>
      rw [hp] at h
      simp at h

/-- Witness for C9 at a non-array input (the isinstance TypeError). -/
theorem claim_C9_witness :
    (parr intStr Kind.intK PyVal.other true false false).1 = .error .typeError ∧
      (parr intStr Kind.intK PyVal.other true false false).2 = "" :=
  ⟨rfl, claim_C9_no_partial_output intStr Kind.intK PyVal.other true false false
    .typeError rfl⟩

/-- C4 counterexample: for the 1-D integer grid [-1, 0, 12] the Entry
Formatter right-justifies to the maximal minimal-representation width 2, not
3: the aligned entries are "-1", " 0", "12", not " -1", "  0", " 12". -/
theorem claim_C4_counterexample :
    fmt_entries intStr Kind.intK ⟨[3], [-1, 0, 12]⟩ = .ok ⟨[3], ["-1", " 0", "12"]⟩ ∧
      (["-1", " 0", "12"] : List String) ≠ [" -1", "  0", " 12"] := by
  exact ⟨rfl, by decide⟩

/-- C4 amended: with default options the grid [-1, 0, 12] renders its entries
right-justified to width 2; the forced 1-D box routes the row through hstack
with zero spacing, so the row line is the plain concatenation of the entries
with no separator; the output is a 3-line block (top border, one bordered
content line, bottom border) drawn with the dashed border characters. -/
theorem claim_C4_amended :
    parr intStr Kind.intK (.ndarray ⟨[3], [-1, 0, 12]⟩) true false false =
      (.ok (), "┌╌╌╌╌╌╌┐\n┊-1 012┊\n└╌╌╌╌╌╌┘\n") := rfl

/-- C7: rendering the empty 1-D integer grid does not resolve to a valid
block: the forced box routes the empty row into the recursive case, hstack
receives no blocks, and Python max() of an empty sequence raises ValueError. -/
theorem claim_C7_empty_grid_crashes :
    parr intStr Kind.intK (.ndarray ⟨[0], []⟩) true false false =
      (.error .valueError, "") := rfl

/-- C6 counterexample: on an unsupported (boolean) grid with one entry, the
Entry Formatter does raise UnsupportedKind, but the collaborator
stringification of line 26 has already processed the entry before the
dispatch: the trace of collaborator calls is non-empty. -/
theorem claim_C6_counterexample :
    (fmt_entriesTr id Kind.boolK ⟨[1], ["True"]⟩).2 = .error .notImplementedError ∧
      (fmt_entriesTr id Kind.boolK ⟨[1], ["True"]⟩).1 = ["True"] ∧
      (["True"] : List String) ≠ [] :=
  ⟨rfl, rfl, by decide⟩

/-- C1 counterexample: in the complex grid stringified as (1.5+2.5j) and
(1.5+22.5j), the Entry Formatter aligns the entries as "1.5 +2.5j" and
"1.5+22.5j": the imaginary sign sits at column 4 in the first entry and at
column 3 in the second, so the imaginary-sign column is NOT identical across
entries (the imaginary part is right justified, so only its end column is). -/
theorem claim_C1_counterexample :
    fmt_entries id Kind.complexK ⟨[2], ["(1.5+2.5j)", "(1.5+22.5j)"]⟩ =
      .ok ⟨[2], ["1.5 +2.5j", "1.5+22.5j"]⟩ ∧
      signCol "1.5 +2.5j" = 4 ∧ signCol "1.5+22.5j" = 3 ∧ (4 : Nat) ≠ 3 :=
  ⟨rfl, rfl, rfl, by decide⟩

/-- C1 amended: for every supported grid, a successful Entry Formatter run
preserves the shape and entry count and gives every output entry the same
total length; for real/complex grids whose stringified entries decompose
with the (real, resp. real and imaginary) integer part ending in the decimal
point, the decimal-point column — and for complex also the imaginary
decimal-point column — is identical across entries.  (The imaginary sign's
column is not invariant: that part is right-justified, so its end column is
pinned, not its start.) -/
theorem claim_C1_amended {α : Type} (a2s : α → String) (k : Kind) (arr : NpArray α)
    (g : NpArray String) (hok : fmt_entries a2s k arr = .ok g)
    (hreal : k = Kind.floatK →
      ((arr.flat.map a2s).all (fun s =>
        match reSearch floatMatchers s.toList with
        | some gs => endsWithDot (gs.headD "")
        | none => true)) = true)
    (hcplx : k = Kind.complexK →
      ((arr.flat.map a2s).all (fun s =>
        match reSearch complexMatchers s.toList with
        | some gs => endsWithDot (gs.headD "") && endsWithDot (gs.getD 3 "")
        | none => true)) = true) :
    g.shape = arr.shape ∧ g.flat.length = arr.flat.length ∧
      allSameLength g.flat = true ∧
      (k = Kind.floatK → ∃ c, ∀ e ∈ g.flat, charAt e c = '.') ∧
      (k = Kind.complexK → ∃ c1 c2, c1 < c2 ∧
        ∀ e ∈ g.flat, charAt e c1 = '.' ∧ charAt e c2 = '.') := by
  cases k with
  | boolK =>
    rw [fmt_entries_unfold_none (show kindPattern Kind.boolK = none from rfl)] at hok
    cases hok
  | intK =>
    obtain ⟨rg, hm, hg⟩ := fmt_entries_ok_inv
      (show kindPattern Kind.intK = some (intMatchers, [0]) from rfl) hok
    subst hg
    have hfacts := regroups_facts hm
    have hlen1 : ∀ u ∈ rg, u.length = 1 := fun u hu => (hfacts u hu).1
    refine ⟨rfl, by simpa using ((optionMapM_forall₂ hm).length_eq).symm, ?_, ?_, ?_⟩
    · cases rg with
      | nil => rfl
      | cons t0r rrest =>
        have hb0 := entry_bounds hlen1 (List.mem_cons_self t0r rrest)
        have hMLl : ((zipStar (t0r :: rrest)).map maxLenOf).length = 1 := by
          rw [← hb0.length_eq, hlen1 t0r (List.mem_cons_self _ _)]
        obtain ⟨m0, hML⟩ := List.length_eq_one.mp hMLl
        apply allSameLength_of (w := m0)
        intro e he
        obtain ⟨t, ht, rfl⟩ := List.mem_map.mp he
        obtain ⟨s0, ht1⟩ := List.length_eq_one.mp (hlen1 t ht)
        subst ht1
        have hbt := entry_bounds hlen1 ht
        rw [hML] at hbt ⊢
        cases hbt with
        | cons h0 _ => exact int_entry_props h0
    · intro h; exact absurd h (by decide)
    · intro h; exact absurd h (by decide)
  | floatK =>
    obtain ⟨rg, hm, hg⟩ := fmt_entries_ok_inv
      (show kindPattern Kind.floatK = some (floatMatchers, [0, 1, 1]) from rfl) hok
    subst hg
    have hfacts := regroups_facts hm
    have hlen3 : ∀ u ∈ rg, u.length = 3 := fun u hu => (hfacts u hu).1
    have hdot : ∀ t ∈ rg, (t.headD "").toList.getLast? = some '.' := by
      intro t ht
      obtain ⟨_, s, hs, hsearch⟩ := hfacts t ht
      have hP := List.all_eq_true.mp (hreal rfl) s hs
      simp only [hsearch, endsWithDot, beq_iff_eq] at hP
      exact hP
    have hML : rg = [] ∨ ∃ m0 m1 m2, (zipStar rg).map maxLenOf = [m0, m1, m2] ∧
        ∀ e ∈ rg.map (fun t => fmt_entry t ((zipStar rg).map maxLenOf) [0, 1, 1]),
          e.length = m0 + m1 + m2 ∧ charAt e (m0 - 1) = '.' := by
      cases rg with
      | nil => exact Or.inl rfl
      | cons t0r rrest =>
        right
        have hb0 := entry_bounds hlen3 (List.mem_cons_self t0r rrest)
        have hMLl : ((zipStar (t0r :: rrest)).map maxLenOf).length = 3 := by
          rw [← hb0.length_eq, hlen3 t0r (List.mem_cons_self _ _)]
        obtain ⟨m0, m1, m2, hML3⟩ := List.length_eq_three.mp hMLl
        refine ⟨m0, m1, m2, hML3, ?_⟩
        intro e he
        obtain ⟨t, ht, rfl⟩ := List.mem_map.mp he
        obtain ⟨s0, s1, s2, ht3⟩ := List.length_eq_three.mp (hlen3 t ht)
        subst ht3
        have hbt := entry_bounds hlen3 ht
        rw [hML3] at hbt ⊢
        cases hbt with
        | cons h0 hbt1 =>
          cases hbt1 with
          | cons h1 hbt2 =>
            cases hbt2 with
            | cons h2 _ =>
              exact float_entry_props h0 h1 h2 (hdot _ ht)
    refine ⟨rfl, by simpa using ((optionMapM_forall₂ hm).length_eq).symm, ?_, ?_, ?_⟩
    · rcases hML with hnil | ⟨m0, m1, m2, _, hprops⟩
      · subst hnil; rfl
      · exact allSameLength_of (w := m0 + m1 + m2) (fun e he => (hprops e he).1)
    · intro _
      rcases hML with hnil | ⟨m0, m1, m2, _, hprops⟩
      · subst hnil
        exact ⟨0, by simp⟩
      · exact ⟨m0 - 1, fun e he => (hprops e he).2⟩
    · intro h; exact absurd h (by decide)
  | complexK =>
    obtain ⟨rg, hm, hg⟩ := fmt_entries_ok_inv
      (show kindPattern Kind.complexK = some (complexMatchers, [0, 1, 1, 0, 1, 1, 0]) from
        rfl) hok
    subst hg
    have hfacts := regroups_facts hm
    have hlen7 : ∀ u ∈ rg, u.length = 7 := fun u hu => (hfacts u hu).1
    have hdot : ∀ t ∈ rg, (t.headD "").toList.getLast? = some '.' ∧
        (t.getD 3 "").toList.getLast? = some '.' := by
      intro t ht
      obtain ⟨_, s, hs, hsearch⟩ := hfacts t ht
      have hP := List.all_eq_true.mp (hcplx rfl) s hs
      simp only [hsearch, endsWithDot, Bool.and_eq_true, beq_iff_eq] at hP
      exact hP
    have hML : rg = [] ∨ ∃ m0 m1 m2 m3 m4 m5 m6,
        (zipStar rg).map maxLenOf = [m0, m1, m2, m3, m4, m5, m6] ∧
        (∀ e ∈ rg.map (fun t =>
            fmt_entry t ((zipStar rg).map maxLenOf) [0, 1, 1, 0, 1, 1, 0]),
          e.length = m0 + m1 + m2 + m3 + m4 + m5 + m6 ∧
            charAt e (m0 - 1) = '.' ∧ charAt e (m0 + m1 + m2 + m3 - 1) = '.') ∧
        m0 - 1 < m0 + m1 + m2 + m3 - 1 := by
      cases rg with
      | nil => exact Or.inl rfl
      | cons t0r rrest =>
        right
        have hb0 := entry_bounds hlen7 (List.mem_cons_self t0r rrest)
        have hMLl : ((zipStar (t0r :: rrest)).map maxLenOf).length = 7 := by
          rw [← hb0.length_eq, hlen7 t0r (List.mem_cons_self _ _)]
        obtain ⟨m0, m1, m2, m3, m4, m5, m6, hML7⟩ := length_eq_seven hMLl
        have hall : ∀ e ∈ (t0r :: rrest).map (fun t =>
            fmt_entry t ((zipStar (t0r :: rrest)).map maxLenOf) [0, 1, 1, 0, 1, 1, 0]),
            e.length = m0 + m1 + m2 + m3 + m4 + m5 + m6 ∧
              charAt e (m0 - 1) = '.' ∧ charAt e (m0 + m1 + m2 + m3 - 1) = '.' ∧
              m0 - 1 < m0 + m1 + m2 + m3 - 1 := by
          intro e he
          obtain ⟨t, ht, rfl⟩ := List.mem_map.mp he
          obtain ⟨s0, s1, s2, s3, s4, s5, s6, ht7⟩ := length_eq_seven (hlen7 t ht)
          subst ht7
          have hbt := entry_bounds hlen7 ht
          rw [hML7] at hbt ⊢
          cases hbt with
          | cons h0 hbt1 =>
            cases hbt1 with
            | cons h1 hbt2 =>
              cases hbt2 with
              | cons h2 hbt3 =>
                cases hbt3 with
                | cons h3 hbt4 =>
                  cases hbt4 with
                  | cons h4 hbt5 =>
                    cases hbt5 with
                    | cons h5 hbt6 =>
                      cases hbt6 with
                      | cons h6 _ =>
                        obtain ⟨hlenE, hc0, hc3, hlt⟩ :=
                          complex_entry_props h0 h1 h2 h3 h4 h5 h6
                            (hdot _ ht).1 (hdot _ ht).2
                        exact ⟨hlenE, hc0, hc3, hlt⟩
        have he0 : fmt_entry t0r ((zipStar (t0r :: rrest)).map maxLenOf)
            [0, 1, 1, 0, 1, 1, 0] ∈ (t0r :: rrest).map (fun t =>
              fmt_entry t ((zipStar (t0r :: rrest)).map maxLenOf)
                [0, 1, 1, 0, 1, 1, 0]) :=
          List.mem_map_of_mem _ (List.mem_cons_self _ _)
        refine ⟨m0, m1, m2, m3, m4, m5, m6, hML7,
          fun e he => ⟨(hall e he).1, (hall e he).2.1, (hall e he).2.2.1⟩,
          (hall _ he0).2.2.2⟩
    refine ⟨rfl, by simpa using ((optionMapM_forall₂ hm).length_eq).symm, ?_, ?_, ?_⟩
    · rcases hML with hnil | ⟨m0, m1, m2, m3, m4, m5, m6, _, hprops, _⟩
      · subst hnil; rfl
      · exact allSameLength_of (w := m0 + m1 + m2 + m3 + m4 + m5 + m6)
          (fun e he => (hprops e he).1)
    · intro h; exact absurd h (by decide)
    · intro _
      rcases hML with hnil | ⟨m0, m1, m2, m3, m4, m5, m6, _, hprops, hlt⟩
      · subst hnil
        exact ⟨0, 1, by omega, by simp⟩
      · exact ⟨m0 - 1, m0 + m1 + m2 + m3 - 1, hlt,
          fun e he => ⟨(hprops e he).2.1, (hprops e he).2.2⟩⟩

/-- Witness for C1 (amended) at the real grid stringified as 1.5 and -2.25,
aligned to " 1.5 " and "-2.25" (decimal points both at column 2). -/
theorem claim_C1_witness :
    (NpArray.mk [2] [" 1.5 ", "-2.25"]).shape =
      ((NpArray.mk [2] ["1.5", "-2.25"]) : NpArray String).shape ∧
    (NpArray.mk [2] [" 1.5 ", "-2.25"]).flat.length =
      ((NpArray.mk [2] ["1.5", "-2.25"]) : NpArray String).flat.length ∧
    allSameLength (NpArray.mk [2] [" 1.5 ", "-2.25"]).flat = true ∧
    (Kind.floatK = Kind.floatK →
      ∃ c, ∀ e ∈ (NpArray.mk [2] [" 1.5 ", "-2.25"]).flat, charAt e c = '.') ∧
    (Kind.floatK = Kind.complexK → ∃ c1 c2, c1 < c2 ∧
      ∀ e ∈ (NpArray.mk [2] [" 1.5 ", "-2.25"]).flat,
        charAt e c1 = '.' ∧ charAt e c2 = '.') :=
  claim_C1_amended id Kind.floatK ⟨[2], ["1.5", "-2.25"]⟩ ⟨[2], [" 1.5 ", "-2.25"]⟩
    rfl (fun _ => by decide) (fun h => absurd h (by decide))

/-- C8: for every non-empty block of equal-length lines of content width W,
box returns a block whose first and last lines are pure border (corner, W
horizontal-rule characters, corner), whose middle lines are the content lines
wrapped in one vertical-rule character on each side, and every output line
has width W + 2. -/
theorem claim_C8_box_invariant (lines : List String) (dotted : Bool) (W : Nat)
    (h1 : lines ≠ []) (h2 : ∀ l ∈ lines, l.length = W) :
    box lines dotted = .ok (borderTop W (hch dotted) ::
      (lines.map (fun l => String.mk [vch dotted] ++ l ++ String.mk [vch dotted]) ++
        [borderBot W (hch dotted)])) ∧
      ∀ s ∈ (borderTop W (hch dotted) ::
        (lines.map (fun l => String.mk [vch dotted] ++ l ++ String.mk [vch dotted]) ++
          [borderBot W (hch dotted)])), s.length = W + 2 := by
  obtain ⟨w, out, hbox, hout, hlew, hwmem, hlen, _⟩ := box_props dotted h1
  have hwW : w = W := by
    obtain ⟨l, hl, hlw⟩ := List.mem_map.mp hwmem
    rw [← hlw]
    exact h2 l hl
  subst hwW
  have hmap : lines.map (fun l => String.mk [vch dotted] ++ pyLjust l w ++ String.mk [vch dotted]) =
      lines.map (fun l => String.mk [vch dotted] ++ l ++ String.mk [vch dotted]) := by
    apply List.map_congr_left
    intro l hl
    rw [pyLjust_eq_self (h2 l hl)]
  constructor
  · rw [hbox, hout, hmap]
  · intro s hs
    rw [← hmap] at hs
    rw [← hout] at hs
    exact hlen s hs

/-- Witness for C8 at the block with lines ab and cd (content width 2). -/
theorem claim_C8_witness :
    ((["ab", "cd"] : List String) ≠ [] ∧ ∀ l ∈ (["ab", "cd"] : List String), l.length = 2) ∧
      (box ["ab", "cd"] false = .ok (borderTop 2 (hch false) ::
        ((["ab", "cd"] : List String).map
          (fun l => String.mk [vch false] ++ l ++ String.mk [vch false]) ++
          [borderBot 2 (hch false)])) ∧
        ∀ s ∈ (borderTop 2 (hch false) ::
          ((["ab", "cd"] : List String).map
            (fun l => String.mk [vch false] ++ l ++ String.mk [vch false]) ++
            [borderBot 2 (hch false)])), s.length = 2 + 2) :=
  ⟨⟨by decide, by decide⟩,
    claim_C8_box_invariant ["ab", "cd"] false 2 (by decide) (by decide)⟩

/-- C5 counterexample: with bracket_inner_1D set by the caller, a 1-D input
renders as a bare bracketed line with no border box at all, although
box_inner_1D was forced on: the bracket branch of line 85 takes precedence,
so box-styling is not applied regardless of all the caller's options. -/
theorem claim_C5_counterexample :
    parr intStr Kind.intK (.ndarray ⟨[2], [1, 2]⟩) true true false = (.ok (), "[1 2]\n") ∧
      ("[1 2]\n".toList.all
        (fun c => !(c == '│' || c == '┊' || c == '┌' || c == '└' || c == '╌' || c == '─'))) =
        true :=
  ⟨rfl, by decide⟩

/-- C5 amended: box_inner_1D is forced to true whenever the whole input is
exactly 1-D, regardless of the caller's box_inner_1D value; consequently a
non-empty 1-D input is rendered wrapped in a full border box provided
bracket_inner_1D is not set (that branch takes precedence over the forced
box), the box rules being dashed exactly when dot_odds is set. -/
theorem claim_C5_amended {α : Type} (a2s : α → String) (k : Kind) (arr : NpArray α)
    (n : Nat) (d br bx : Bool) (h1 : arr.shape = [n]) :
    parr a2s k (.ndarray arr) d br bx = parr a2s k (.ndarray arr) d br true ∧
      (br = false → 0 < n → ∀ g, fmt_entries a2s k arr = .ok g →
        ∃ w mid, parrLines a2s k arr d br bx =
          .ok (borderTop w (hch d) :: (mid ++ [borderBot w (hch d)])) ∧
          ∀ l ∈ mid, charAt l 0 = vch d ∧ charAt l (w + 1) = vch d) := by
  have hbox1 : (if (arr.shape.length == 1) = true then true else bx) = true := by
    rw [h1]
    rfl
  have hlines : parrLines a2s k arr d br bx = parrLines a2s k arr d br true := by
    unfold parrLines
    simp only [hbox1, ite_self]
  constructor
  · have e1 : parr a2s k (.ndarray arr) d br bx =
        (match parrLines a2s k arr d br bx with
          | .error e => (Except.error e, "")
          | .ok lines => (Except.ok (), String.intercalate "\n" lines ++ "\n")) := rfl
    have e2 : parr a2s k (.ndarray arr) d br true =
        (match parrLines a2s k arr d br true with
          | .error e => (Except.error e, "")
          | .ok lines => (Except.ok (), String.intercalate "\n" lines ++ "\n")) := rfl
    rw [e1, e2, hlines]
  · intro hbr hn g hg
    unfold parrLines
    simp only [hbox1]
    rw [hg]
    simp only [except_bind_ok]
    have hgs : g.shape = [n] := by rw [(fmt_entries_shape hg).1, h1]
    rw [hgs, hbr]
    obtain ⟨w, mid, hfmt, hmid⟩ := layout_1d_boxed d n g.flat hn
    exact ⟨w, mid, hfmt, fun l hl => ⟨(hmid l hl).1, (hmid l hl).2.1⟩⟩

/-- Witness for C5 (amended) at the 1-D singleton integer grid with entry 5. -/
theorem claim_C5_witness :
    (parr intStr Kind.intK (.ndarray ⟨[1], [5]⟩) true false false =
      parr intStr Kind.intK (.ndarray ⟨[1], [5]⟩) true false true) ∧
      ∃ w mid, parrLines intStr Kind.intK ⟨[1], [5]⟩ true false false =
        .ok (borderTop w (hch true) :: (mid ++ [borderBot w (hch true)])) ∧
        ∀ l ∈ mid, charAt l 0 = vch true ∧ charAt l (w + 1) = vch true := by
  have h := claim_C5_amended intStr Kind.intK ⟨[1], [5]⟩ 1 true false false rfl
  exact ⟨h.1, h.2 rfl (by decide) ⟨[1], ["5"]⟩ rfl⟩

/-- C10: when the whole input is exactly 1-D and the options keep their
defaults (dot_odds true, bracket_inner_1D and box_inner_1D false), the forced
surrounding box is drawn with the dashed border characters: the row is routed
through the odd-parity recursive case with dot_odds set. -/
theorem claim_C10_default_1d_dashed {α : Type} (a2s : α → String) (k : Kind)
    (arr : NpArray α) (n : Nat) (g : NpArray String)
    (h1 : arr.shape = [n]) (h2 : 0 < n) (h3 : fmt_entries a2s k arr = .ok g) :
    ∃ w mid, parrLines a2s k arr true false false =
      .ok (borderTop w '╌' :: (mid ++ [borderBot w '╌'])) ∧
      ∀ l ∈ mid, charAt l 0 = '┊' ∧ charAt l (w + 1) = '┊' := by
  have hbox1 : (if (arr.shape.length == 1) = true then true else false) = true := by
    rw [h1]
    rfl
  unfold parrLines
  simp only [hbox1]
  rw [h3]
  simp only [except_bind_ok]
  have hgs : g.shape = [n] := by rw [(fmt_entries_shape h3).1, h1]
  rw [hgs]
  obtain ⟨w, mid, hfmt, hmid⟩ := layout_1d_boxed true n g.flat h2
  refine ⟨w, mid, ?_, ?_⟩
  · simpa [hch] using hfmt
  · intro l hl
    have h := hmid l hl
    exact ⟨by simpa [vch] using h.1, by simpa [vch] using h.2.1⟩

/-- Witness for C10 at the 1-D integer grid with entries 3 and 14. -/
theorem claim_C10_witness :
    ∃ w mid, parrLines intStr Kind.intK ⟨[2], [3, 14]⟩ true false false =
      .ok (borderTop w '╌' :: (mid ++ [borderBot w '╌'])) ∧
      ∀ l ∈ mid, charAt l 0 = '┊' ∧ charAt l (w + 1) = '┊' :=
  claim_C10_default_1d_dashed intStr Kind.intK ⟨[2], [3, 14]⟩ 2 ⟨[2], [" 3", "14"]⟩
    rfl (by decide) rfl

/-- C6 amended: the Entry Formatter fails with UnsupportedKind exactly when
the scalar kind is outside {integer, real, complex}, and it then produces no
output grid; but every entry has already been stringified by the external
collaborator (line 26) before the failing dispatch, so the failure is before
any part extraction, not before any entry is processed. -/
theorem claim_C6_amended {α : Type} (a2s : α → String) (k : Kind) (arr : NpArray α) :
    isUnsupportedErr (fmt_entriesTr a2s k arr).2 = !supportedKind k ∧
      (fmt_entriesTr a2s k arr).1 = arr.flat.map a2s := by
  refine ⟨?_, rfl⟩
  cases hkp : kindPattern k with
  | none =>
    have hk : supportedKind k = false := by simp [supportedKind, hkp]
    simp [fmt_entriesTr, hkp, hk, isUnsupportedErr]
  | some pl =>
    have hk : supportedKind k = true := by simp [supportedKind, hkp]
    simp only [fmt_entriesTr, hkp, hk, Bool.not_true]
    cases hm : (arr.flat.map a2s).mapM (fun s => reSearch pl.1 s.toList) with
    | none => simp [hm, isUnsupportedErr]
    | some rg => simp [hm, isUnsupportedErr]

end NPB
